import Mathlib

/-!
Shallow embedding of the GMM speaker-identification pipeline in
src/Python/stats/gmm.py: MAP adaptation of Gaussian mixture means,
the model store, and the scorer built on per-speaker log-likelihoods.

Numeric arrays are embedded over ℝ (exact real semantics) for the
analytic claims; the one claim about IEEE-754 special values (division
by a zero occupancy) is settled over an explicit float-value type FP
that models NaN/Inf propagation of the operations involved.
Python strings are embedded as List Char (a Python str is a sequence
of code points). External collaborators (sklearn fit/score, pickle)
enter as parameters or as exact-round-trip storage, as the spec
directs.
-/

namespace GmmPy

/-! ### Float values with IEEE-754 special elements

Only the operations used by the M-step and the mean-adaptation lines of
map_adaptation are modelled: +, -, *, / with NaN propagation,
signed infinities from division by zero, and 0 * inf = NaN. -/

inductive FP where
  | num (q : ℚ)
  | inf
  | neginf
  | nan
deriving DecidableEq

def FP.add : FP → FP → FP
  | FP.num a, FP.num b => FP.num (a + b)
  | FP.num _, FP.inf => FP.inf
  | FP.num _, FP.neginf => FP.neginf
  | FP.inf, FP.num _ => FP.inf
  | FP.neginf, FP.num _ => FP.neginf
  | FP.inf, FP.inf => FP.inf
  | FP.neginf, FP.neginf => FP.neginf
  | FP.inf, FP.neginf => FP.nan
  | FP.neginf, FP.inf => FP.nan
  | _, _ => FP.nan

def FP.neg : FP → FP
  | FP.num a => FP.num (-a)
  | FP.inf => FP.neginf
  | FP.neginf => FP.inf
  | FP.nan => FP.nan

def FP.sub (a b : FP) : FP := FP.add a (FP.neg b)

def FP.mul : FP → FP → FP
  | FP.num a, FP.num b => FP.num (a * b)
  | FP.num a, FP.inf => if a = 0 then FP.nan else if 0 < a then FP.inf else FP.neginf
  | FP.inf, FP.num a => if a = 0 then FP.nan else if 0 < a then FP.inf else FP.neginf
  | FP.num a, FP.neginf => if a = 0 then FP.nan else if 0 < a then FP.neginf else FP.inf
  | FP.neginf, FP.num a => if a = 0 then FP.nan else if 0 < a then FP.neginf else FP.inf
  | FP.inf, FP.inf => FP.inf
  | FP.neginf, FP.neginf => FP.inf
  | FP.inf, FP.neginf => FP.neginf
  | FP.neginf, FP.inf => FP.neginf
  | _, _ => FP.nan

def FP.div : FP → FP → FP
  | FP.num a, FP.num b =>
      if b = 0 then (if a = 0 then FP.nan else if 0 < a then FP.inf else FP.neginf)
      else FP.num (a / b)
  | FP.num _, FP.inf => FP.num 0
  | FP.num _, FP.neginf => FP.num 0
  | FP.inf, FP.num b => if 0 ≤ b then FP.inf else FP.neginf
  | FP.neginf, FP.num b => if 0 ≤ b then FP.neginf else FP.inf
  | _, _ => FP.nan

/-- Sum of a list of float values, as np.sum accumulates. -/
def fpSum (l : List FP) : FP := l.foldl FP.add (FP.num 0)

/-! ### map_adaptation M-step and mean adaptation, float semantics (one
component, one feature dimension; the numpy code applies these
elementwise).  z is the column z_n_k[:, i] of responsibilities of
component i for each frame (output of the external predict_proba), x is
the column X[:, d] of the feature matrix. -/

/-- gmm.py line 120: n_k = np.sum(z_n_k, axis=0), entry i. -/
def occupancyFP (z : List FP) : FP := fpSum z

/-- gmm.py lines 124-126: temp = Σ_n z_n_k[n, i] * X[n, :], one dimension. -/
def mStepTempFP (z x : List FP) : FP := fpSum (List.zipWith FP.mul z x)

/-- gmm.py line 128: mu_new[i] = (1 / n_k[i]) * temp. -/
def muNewFP (nk temp : FP) : FP := FP.mul (FP.div (FP.num 1) nk) temp

/-- gmm.py lines 131-134: adaptation_coefficient = n_k / (n_k + relevance_factor);
mu_k[k] = coefficient * mu_new[k] + (1 - coefficient) * mu_k[k]. -/
def adaptedMeanFP (nk rf muNew muPrior : FP) : FP :=
  let coefficient := FP.div nk (FP.add nk rf)
  FP.add (FP.mul coefficient muNew) (FP.mul (FP.sub (FP.num 1) coefficient) muPrior)

/-! ### Python string handling for the output path (List Char model) -/

/-- Python str.split('.'): chunks of the string between occurrences of '.'. -/
def splitDot : List Char → List (List Char)
  | [] => [[]]
  | c :: rest =>
      if c = '.' then [] :: splitDot rest
      else
        match splitDot rest with
        | [] => [[c]]
        | h :: t => (c :: h) :: t

/-- gmm.py lines 94-96: if output_path and '.' in output_path:
output_path = output_path.split('.')[0]. -/
def stripOutputPath (p : List Char) : List Char :=
  if p.contains '.' then (splitDot p).headD [] else p

/-- The extension appended on save, gmm.py line 147. -/
def dotGmm : List Char := ['.', 'g', 'm', 'm']

/-- gmm.py lines 146-148: the filename the adapted model is pickled to. -/
def savedModelPath (p : List Char) : List Char := stripOutputPath p ++ dotGmm

/-! ### Model store (gmm.py lines 146-148 and 153-173)

A directory is a list of (filename, stored model) pairs; pickle
round-trips values exactly, so the stored payload is the model value
itself. -/

/-- Python file.replace('.gmm', ''): removes every (leftmost,
non-overlapping) occurrence of ".gmm". -/
def removeDotGmm : List Char → List Char
  | [] => []
  | c :: rest =>
      if dotGmm.isPrefixOf (c :: rest) then removeDotGmm (rest.drop 3)
      else c :: removeDotGmm rest
termination_by l => l.length
decreasing_by
  all_goals simp only [List.length_cons, List.length_drop]
  all_goals omega

/-- gmm.py lines 146-148: pickle the adapted model under the stripped
path with the canonical extension appended (prepending shadows any
previous file of the same name, i.e. silent overwrite). -/
def saveAdaptedModel {M : Type} (output_path : List Char) (m : M)
    (dir : List (List Char × M)) : List (List Char × M) :=
  (savedModelPath output_path, m) :: dir

/-- gmm.py lines 167-173: scan the directory for files ending in ".gmm",
unpickle each, key the result by the filename with ".gmm" removed. -/
def load_gmm_models {M : Type} (dir : List (List Char × M)) : List (List Char × M) :=
  (dir.filter (fun f => dotGmm.isSuffixOf f.1)).map (fun f => (removeDotGmm f.1, f.2))

/-! ### train_gmm_models (gmm.py lines 11-65)

The external sklearn GaussianMixture fit is the parameter fit; a
feature file is a List (List ℚ) (frames by dimensions).  The first
component of the result is the list of files written, in order. -/

/-- gmm.py lines 43-65.  The shape check at lines 43-45 precedes the
directory creation, all fitting and all writes. -/
def train_gmm_models {M : Type} (fit : List (List ℚ) → M)
    (X : List (List (List ℚ))) (speaker_names : List String)
    (output_dir : Option String) :
    List String × Except String (List (String × M)) :=
  if X.length ≠ speaker_names.length then
    ([], Except.error "ShapeMismatch")
  else
    let uniqueNames := speaker_names.dedup
    let models := uniqueNames.map (fun s =>
      (s, fit (((X.zip speaker_names).filter (fun p => p.2 = s)).map Prod.fst).flatten))
    let written :=
      match output_dir with
      | none => []
      | some d => uniqueNames.map (fun s => d ++ "/" ++ s ++ ".gmm")
    (written, Except.ok models)

/-! ### Gaussian mixture model over ℝ (exact real semantics)

Diagonal covariance family, as trained by train_gmm_models (default
covariance_type = 'diag').  K components over feature dimension D.
mixturePdf and responsibilities embed the external sklearn score /
predict_proba as the mathematical functions they compute. -/

structure GMM (K D : ℕ) where
  weights : Fin K → ℝ
  means : Fin K → Fin D → ℝ
  variances : Fin K → Fin D → ℝ

/-- Density of one diagonal-covariance Gaussian component at a frame. -/
noncomputable def componentPdf {D : ℕ} (mu v x : Fin D → ℝ) : ℝ :=
  (∏ d, 1 / Real.sqrt (2 * Real.pi * v d)) *
    Real.exp (-∑ d, (x d - mu d) ^ 2 / (2 * v d))

/-- Mixture density at a frame. -/
noncomputable def mixturePdf {K D : ℕ} (g : GMM K D) (x : Fin D → ℝ) : ℝ :=
  ∑ k, g.weights k * componentPdf (g.means k) (g.variances k) x

/-- Posterior responsibility of component k for frame x
(gmm.py line 119, z_n_k = gmm.predict_proba(X)). -/
noncomputable def responsibility {K D : ℕ} (g : GMM K D) (x : Fin D → ℝ) (k : Fin K) : ℝ :=
  g.weights k * componentPdf (g.means k) (g.variances k) x / mixturePdf g x

/-- gmm.py line 120: n_k = np.sum(z_n_k, axis=0). -/
noncomputable def occupancy {K D N : ℕ} (g : GMM K D) (X : Fin N → Fin D → ℝ) (k : Fin K) : ℝ :=
  ∑ n, responsibility g (X n) k

/-- gmm.py lines 123-128: mu_new[i] = (1 / n_k[i]) * Σ_n z_n_k[n, i] * X[n, :]. -/
noncomputable def dataMean {K D N : ℕ} (g : GMM K D) (X : Fin N → Fin D → ℝ) (k : Fin K)
    (d : Fin D) : ℝ :=
  (1 / occupancy g X k) * ∑ n, responsibility g (X n) k * X n d

/-- gmm.py line 131: adaptation_coefficient = n_k / (n_k + relevance_factor). -/
noncomputable def adaptationCoefficient {K D N : ℕ} (rf : ℝ) (g : GMM K D)
    (X : Fin N → Fin D → ℝ) (k : Fin K) : ℝ :=
  occupancy g X k / (occupancy g X k + rf)

/-- One iteration of the while loop of map_adaptation (gmm.py lines
114-135): E-step responsibilities, M-step data means and occupancies,
then the blend mu_k[k] = coefficient * mu_new[k] + (1 - coefficient) * mu_k[k].
Only the means change; weights and variances are retained. -/
noncomputable def adaptStep {K D N : ℕ} (rf : ℝ) (g : GMM K D) (X : Fin N → Fin D → ℝ) :
    GMM K D :=
  { g with
    means := fun k d =>
      adaptationCoefficient rf g X k * dataMean g X k d +
        (1 - adaptationCoefficient rf g X k) * g.means k d }

/-- The external gmm.score(X): mean per-frame log-likelihood (gmm.py
lines 109 and 137). -/
noncomputable def score {K D N : ℕ} (g : GMM K D) (X : Fin N → Fin D → ℝ) : ℝ :=
  (∑ n, Real.log (mixturePdf g (X n))) / N

/-- The while loop of map_adaptation (gmm.py lines 112-138), with the
iteration budget as fuel: while |old - new| > threshold and iterations
remain, shift old ← new, run one adaptStep, and rescore. -/
noncomputable def adaptLoop {K D N : ℕ} (rf threshold : ℝ) (X : Fin N → Fin D → ℝ) :
    ℕ → ℝ → ℝ → GMM K D → GMM K D
  | 0, _, _, g => g
  | fuel + 1, oldL, newL, g =>
      if |oldL - newL| > threshold then
        let g' := adaptStep rf g X
        adaptLoop rf threshold X fuel newL (score g' X) g'
      else g

/-- gmm.py lines 68-150, the in-memory behaviour: the adaptation starts
from a deep copy of the caller's UBM (line 93) and every in-place write
of the loop lands on the copy, so the pair returned here is (the
adapted model, the caller's UBM object as the call leaves it).
Initial likelihoods per lines 109-110: old = gmm.score(X), new = 0. -/
noncomputable def map_adaptation {K D N : ℕ} (ubm : GMM K D) (X : Fin N → Fin D → ℝ)
    (max_iter : ℕ) (likelihood_threshold rf : ℝ) : GMM K D × GMM K D :=
  (adaptLoop rf likelihood_threshold X max_iter (score ubm X) 0 ubm, ubm)

/-! ### Scorer (gmm.py lines 176-236)

The store is a list of (speaker name, model) pairs in dict insertion
order; the external sklearn score enters as the parameter sc. -/

/-- gmm.py lines 194-196: the per-speaker log-likelihood dict. -/
def logLikelihoods {G Q : Type} (sc : G → Q → ℝ) (store : List (String × G))
    (x : Q) : List (String × ℝ) :=
  store.map (fun p => (p.1, sc p.2 x))

/-- Maximum of a list of reals (the np.max a stabilized softmax subtracts). -/
def listMax : List ℝ → ℝ
  | [] => 0
  | a :: t => t.foldl max a

/-- The external sklearn.utils.extmath.softmax on one row: exponentiate
after subtracting the row maximum, then divide by the sum. -/
noncomputable def softmaxVals (v : List ℝ) : List ℝ :=
  (v.map (fun a => Real.exp (a - listMax v))).map
    (fun a => a / (v.map (fun b => Real.exp (b - listMax v))).sum)

/-- Python max(d, key=d.get) over a dict in insertion order: fold that
replaces the current best only on a strictly greater value, so the
first key attaining the maximum wins. -/
noncomputable def argmaxAcc : List (String × ℝ) → String × ℝ → String × ℝ
  | [], acc => acc
  | p :: t, acc => argmaxAcc t (if acc.2 < p.2 then p else acc)

/-- The entry returned by Python max(d, key=d.get) on a nonempty dict. -/
noncomputable def topEntry : List (String × ℝ) → String × ℝ
  | [] => ("", 0)
  | p :: t => argmaxAcc t p

/-- gmm.py lines 176-204: per-speaker log-likelihoods, softmax
probabilities zipped back onto the speaker names, and the arg-max
speaker. -/
noncomputable def predict_gmm_models {G Q : Type} (sc : G → Q → ℝ) (x : Q)
    (speaker_models : List (String × G)) : String × List (String × ℝ) :=
  let ll := logLikelihoods sc speaker_models x
  let probs_dict := (ll.map Prod.fst).zip (softmaxVals (ll.map Prod.snd))
  ((topEntry ll).1, probs_dict)

/-- Python dict lookup d[s] on an association list (first matching key). -/
def dictGet (l : List (String × ℝ)) (s : String) : ℝ :=
  match l.find? (fun p => p.1 == s) with
  | some p => p.2
  | none => 0

/-- gmm.py lines 207-235: same_different_task.  Line 231 multiplies the
first query's probability at its top speaker s1 with the second query's
probability at that same s1. -/
noncomputable def same_different_task {G Q : Type} (sc : G → Q → ℝ) (x1 x2 : Q)
    (speaker_models : List (String × G)) : ℕ × (ℝ × ℝ) :=
  let r1 := predict_gmm_models sc x1 speaker_models
  let r2 := predict_gmm_models sc x2 speaker_models
  let same_speaker_prob := dictGet r1.2 r1.1 * dictGet r2.2 r1.1
  (if r1.1 = r2.1 then 1 else 0, (same_speaker_prob, 1 - same_speaker_prob))

/-- Concrete scorer for closed-instance statements: two queries (false
and true), speaker models identified by their names.  Log-likelihoods
are 0 or log 2, so the softmax values are exactly 2/3 and 1/3. -/
noncomputable def cexScore (g : String) (q : Bool) : ℝ :=
  if q = false then (if g = "A" then Real.log 2 else 0)
  else (if g = "A" then 0 else Real.log 2)

/-- Concrete two-speaker store for closed-instance statements. -/
def cexStore : List (String × String) := [("A", "A"), ("B", "B")]

/-- Fixed small UBM for closed witness statements: one component, one
dimension, weight 1, mean 0, variance 1. -/
noncomputable def ubm1 : GMM 1 1 := ⟨fun _ => 1, fun _ _ => 0, fun _ _ => 1⟩

/-- Fixed one-frame feature matrix for closed witness statements. -/
def X1 : Fin 1 → Fin 1 → ℝ := fun _ _ => 2

/-! ### Support lemmas: splitDot and the output path -/

theorem splitDot_ne_nil (l : List Char) : splitDot l ≠ [] := by
  cases l with
  | nil => simp [splitDot]
  | cons c rest =>
      by_cases h : c = '.'
      · simp [splitDot, h]
      · simp only [splitDot, h, if_false]
        cases splitDot rest <;> simp

theorem splitDot_headD (l : List Char) :
    (splitDot l).headD [] = l.takeWhile (· != '.') := by
  induction l with
  | nil => simp [splitDot]
  | cons c rest ih =>
      by_cases h : c = '.'
      · simp [splitDot, h, List.takeWhile_cons]
      · simp only [splitDot, h, if_false, List.takeWhile_cons]
        have hne := splitDot_ne_nil rest
        cases hsd : splitDot rest with
        | nil => exact absurd hsd hne
        | cons hd tl =>
            simp only [hsd, List.headD_cons] at ih
            simp [ih, h]

theorem takeWhile_of_no_dot (l : List Char) (h : l.contains '.' = false) :
    l.takeWhile (· != '.') = l := by
  rw [List.takeWhile_eq_self_iff]
  intro c hc
  have : c ≠ '.' := by
    intro hcd
    subst hcd
    simp at h
    exact h hc
  simpa using this

/-! ### Support lemmas: positivity of densities and responsibilities -/

theorem componentPdf_pos {D : ℕ} (mu v x : Fin D → ℝ) (hv : ∀ d, 0 < v d) :
    0 < componentPdf mu v x := by
  unfold componentPdf
  apply mul_pos
  · apply Finset.prod_pos
    intro d _
    have h1 : 0 < 2 * Real.pi * v d := by
      have hpi := Real.pi_pos
      have := hv d
      positivity
    have h2 : 0 < Real.sqrt (2 * Real.pi * v d) := Real.sqrt_pos.mpr h1
    positivity
  · exact Real.exp_pos _

theorem mixturePdf_nonneg {K D : ℕ} (g : GMM K D) (x : Fin D → ℝ)
    (hw : ∀ k, 0 ≤ g.weights k) (hv : ∀ k d, 0 < g.variances k d) :
    0 ≤ mixturePdf g x :=
  Finset.sum_nonneg fun k _ =>
    mul_nonneg (hw k) (componentPdf_pos _ _ _ (hv k)).le

theorem mixturePdf_pos {K D : ℕ} (g : GMM K D) (x : Fin D → ℝ)
    (hw : ∀ k, 0 ≤ g.weights k) (hs : ∑ k, g.weights k = 1)
    (hv : ∀ k d, 0 < g.variances k d) :
    0 < mixturePdf g x := by
  obtain ⟨k, -, hk⟩ :=
    Finset.exists_ne_zero_of_sum_ne_zero (f := g.weights)
      (by rw [hs]; exact one_ne_zero)
  exact Finset.sum_pos'
    (fun j _ => mul_nonneg (hw j) (componentPdf_pos _ _ _ (hv j)).le)
    ⟨k, Finset.mem_univ k,
      mul_pos ((hw k).lt_of_ne (Ne.symm hk)) (componentPdf_pos _ _ _ (hv k))⟩

theorem responsibility_nonneg {K D : ℕ} (g : GMM K D) (x : Fin D → ℝ) (k : Fin K)
    (hw : ∀ k, 0 ≤ g.weights k) (hv : ∀ k d, 0 < g.variances k d) :
    0 ≤ responsibility g x k :=
  div_nonneg (mul_nonneg (hw k) (componentPdf_pos _ _ _ (hv k)).le)
    (mixturePdf_nonneg g x hw hv)

theorem responsibility_sum_eq_one {K D : ℕ} (g : GMM K D) (x : Fin D → ℝ)
    (hw : ∀ k, 0 ≤ g.weights k) (hs : ∑ k, g.weights k = 1)
    (hv : ∀ k d, 0 < g.variances k d) :
    ∑ k, responsibility g x k = 1 := by
  unfold responsibility mixturePdf
  rw [← Finset.sum_div]
  exact div_self (mixturePdf_pos g x hw hs hv).ne'

theorem occupancy_nonneg {K D N : ℕ} (g : GMM K D) (X : Fin N → Fin D → ℝ)
    (k : Fin K) (hw : ∀ k, 0 ≤ g.weights k) (hv : ∀ k d, 0 < g.variances k d) :
    0 ≤ occupancy g X k :=
  Finset.sum_nonneg fun n _ => responsibility_nonneg g (X n) k hw hv

/-! ### Claim C1 -/

/-- C1 (code bug): a component whose responsibility is exactly 0 for
every frame does NOT keep its prior mean.  Under float semantics the
unguarded mu_new[i] = (1/n_k[i]) * temp at n_k[i] = 0 gives
(1/0) * 0 = inf * 0 = NaN, and the blend 0 * NaN + 1 * prior is again
NaN, so the adapted mean is NaN rather than the prior mean 5. -/
theorem zero_occupancy_mean_becomes_nan :
    occupancyFP [FP.num 0, FP.num 0] = FP.num 0 ∧
      adaptedMeanFP (occupancyFP [FP.num 0, FP.num 0]) (FP.num 16)
        (muNewFP (occupancyFP [FP.num 0, FP.num 0])
          (mStepTempFP [FP.num 0, FP.num 0] [FP.num 3, FP.num 4]))
        (FP.num 5) = FP.nan ∧
      FP.nan ≠ FP.num 5 := by
  refine ⟨?_, ?_, by simp⟩
  · norm_num [occupancyFP, fpSum, List.foldl, FP.add]
  · norm_num [adaptedMeanFP, muNewFP, mStepTempFP, occupancyFP, fpSum,
      List.foldl, List.zipWith, FP.add, FP.mul, FP.div, FP.sub, FP.neg]

/-! ### Claim C3 -/

/-- C3 counterexample: on the output path "adapted.v2.pkl" the code
writes "adapted.gmm" — it truncates at the FIRST dot — not the
"adapted.v2.gmm" the claim (strip only the extension) requires. -/
theorem savedModelPath_first_dot_counterexample :
    savedModelPath "adapted.v2.pkl".data = "adapted.gmm".data ∧
      savedModelPath "adapted.v2.pkl".data ≠ "adapted.v2.gmm".data := by
  decide

/-- C3 amended: with a non-None output_path, the model is serialized to
the caller-supplied path truncated at its first dot (dropping
everything from the first dot on, not just the extension), with ".gmm"
appended; a dot-free path is kept whole. -/
theorem savedModelPath_truncates_at_first_dot (p : List Char) :
    savedModelPath p = p.takeWhile (· != '.') ++ dotGmm := by
  unfold savedModelPath stripOutputPath
  by_cases h : p.contains '.' = true
  · rw [if_pos h, splitDot_headD]
  · rw [if_neg h]
    rw [takeWhile_of_no_dot p (by simpa using h)]

/-! ### Claim C5 -/

/-- C5: after one iteration of the adaptation loop, every component with
nonzero occupancy has its new mean equal to the convex combination of
the M-step data mean and the prior mean with coefficient
n_k / (n_k + relevance_factor) in [0, 1], hence on the line segment
between the prior mean and the data-driven mean, never outside. -/
theorem adaptStep_mean_convex_combination {K D N : ℕ} (rf : ℝ) (g : GMM K D)
    (X : Fin N → Fin D → ℝ) (k : Fin K)
    (hv : ∀ k d, 0 < g.variances k d) (hw : ∀ k, 0 ≤ g.weights k)
    (hrf : 0 < rf) (hocc : occupancy g X k ≠ 0) :
    (∀ d, (adaptStep rf g X).means k d =
        adaptationCoefficient rf g X k * dataMean g X k d +
          (1 - adaptationCoefficient rf g X k) * g.means k d) ∧
      adaptationCoefficient rf g X k =
        occupancy g X k / (occupancy g X k + rf) ∧
      0 ≤ adaptationCoefficient rf g X k ∧
      adaptationCoefficient rf g X k ≤ 1 ∧
      (adaptStep rf g X).means k ∈ segment ℝ (g.means k) (dataMean g X k) := by
  have hocc0 : 0 ≤ occupancy g X k := occupancy_nonneg g X k hw hv
  have hpos : 0 < occupancy g X k := hocc0.lt_of_ne (Ne.symm hocc)
  have hden : 0 < occupancy g X k + rf := by linarith
  have hα0 : 0 ≤ adaptationCoefficient rf g X k :=
    div_nonneg hocc0 hden.le
  have hα1 : adaptationCoefficient rf g X k ≤ 1 := by
    rw [adaptationCoefficient, div_le_one hden]
    linarith
  refine ⟨fun d => rfl, rfl, hα0, hα1, ?_⟩
  refine ⟨1 - adaptationCoefficient rf g X k, adaptationCoefficient rf g X k,
    by linarith, hα0, by ring, ?_⟩
  funext d
  show (1 - adaptationCoefficient rf g X k) * g.means k d +
      adaptationCoefficient rf g X k * dataMean g X k d = _
  show _ = adaptationCoefficient rf g X k * dataMean g X k d +
      (1 - adaptationCoefficient rf g X k) * g.means k d
  ring

/-- C5 witness: on the one-component UBM ubm1 and the single frame X1
the occupancy is 1 (nonzero), and the adapted mean indeed lies on the
segment between the prior mean and the data mean. -/
theorem adaptStep_mean_convex_combination_witness :
    (adaptStep 16 ubm1 X1).means 0 ∈
      segment ℝ (ubm1.means 0) (dataMean ubm1 X1 0) := by
  have hpdf : componentPdf (fun _ => (0 : ℝ)) (fun _ => (1 : ℝ))
      (fun _ : Fin 1 => (2 : ℝ)) ≠ 0 :=
    (componentPdf_pos _ _ _ (fun _ => one_pos)).ne'
  have hocc : occupancy ubm1 X1 0 = 1 := by
    unfold occupancy responsibility mixturePdf
    simp only [ubm1, X1, Finset.univ_unique, Finset.sum_singleton, one_mul]
    exact div_self hpdf
  exact (adaptStep_mean_convex_combination 16 ubm1 X1 0
    (fun _ _ => one_pos) (fun _ => zero_le_one) (by norm_num)
    (by rw [hocc]; exact one_ne_zero)).2.2.2.2

/-! ### Claim C6 -/

/-- C6: map_adaptation operates on a deep copy of the UBM taken at
gmm.py line 93; every write of the loop lands on the copy, so the
caller's UBM (second component of the embedded call) is returned
exactly as it was passed in. -/
theorem map_adaptation_leaves_ubm_unchanged {K D N : ℕ} (ubm : GMM K D)
    (X : Fin N → Fin D → ℝ) (max_iter : ℕ) (likelihood_threshold rf : ℝ) :
    (map_adaptation ubm X max_iter likelihood_threshold rf).2 = ubm := rfl

/-! ### Claim C8 -/

/-- C8: saving a model (pickled under the stripped path plus ".gmm")
and re-loading the directory reproduces its weights, means and
variances to tolerance 1e-9 (they come back exactly). -/
theorem save_then_load_reproduces_model {K D : ℕ} (g : GMM K D) (p : List Char)
    (dir : List (List Char × GMM K D)) :
    ∃ m, (removeDotGmm (savedModelPath p), m) ∈
        load_gmm_models (saveAdaptedModel p g dir) ∧
      (∀ k, |m.weights k - g.weights k| ≤ 1e-9) ∧
      (∀ k d, |m.means k d - g.means k d| ≤ 1e-9) ∧
      (∀ k d, |m.variances k d - g.variances k d| ≤ 1e-9) := by
  refine ⟨g, ?_, ?_, ?_, ?_⟩
  · have hsuf : dotGmm.isSuffixOf (savedModelPath p) = true := by
      unfold savedModelPath
      simp [List.isSuffixOf]
    unfold load_gmm_models saveAdaptedModel
    simp only [List.filter_cons, hsuf, if_true, List.map_cons]
    exact List.mem_cons_self _ _
  · intro k
    simp only [sub_self, abs_zero]
    norm_num
  · intro k d
    simp only [sub_self, abs_zero]
    norm_num
  · intro k d
    simp only [sub_self, abs_zero]
    norm_num

/-! ### Claim C9 -/

/-- C9: train_gmm_models fails with ShapeMismatch exactly when the
number of feature matrices and the number of speaker labels disagree,
and in that case it fails before any model is fitted or any file is
written (empty write log, no model store). -/
theorem train_gmm_models_shape_mismatch {M : Type} (fit : List (List ℚ) → M)
    (X : List (List (List ℚ))) (speaker_names : List String)
    (output_dir : Option String) :
    ((train_gmm_models fit X speaker_names output_dir).2 =
        Except.error "ShapeMismatch" ↔ X.length ≠ speaker_names.length) ∧
      (X.length ≠ speaker_names.length →
        train_gmm_models fit X speaker_names output_dir =
          ([], Except.error "ShapeMismatch")) := by
  unfold train_gmm_models
  by_cases h : X.length = speaker_names.length <;> simp [h]

/-- C9 witness: one feature matrix against zero speaker labels is
rejected up front with ShapeMismatch and nothing written. -/
theorem train_gmm_models_shape_mismatch_witness :
    train_gmm_models (fun _ => ()) [[[(1 : ℚ)]]] [] none =
      ([], Except.error "ShapeMismatch") :=
  (train_gmm_models_shape_mismatch (fun _ => ()) [[[(1 : ℚ)]]] [] none).2
    (by decide)

/-! ### Support lemmas for likelihood monotonicity (claim C4)

One adaptStep never decreases the total data log-likelihood: the means
move part-way toward the maximizer of the EM surrogate Q, so Q does not
decrease, and Jensen's inequality transfers that to the likelihood. -/

theorem adaptStep_weights {K D N : ℕ} (rf : ℝ) (g : GMM K D)
    (X : Fin N → Fin D → ℝ) : (adaptStep rf g X).weights = g.weights := rfl

theorem adaptStep_variances {K D N : ℕ} (rf : ℝ) (g : GMM K D)
    (X : Fin N → Fin D → ℝ) : (adaptStep rf g X).variances = g.variances := rfl

theorem log_componentPdf_sub {D : ℕ} (mu mu' v x : Fin D → ℝ)
    (hv : ∀ d, 0 < v d) :
    Real.log (componentPdf mu' v x) - Real.log (componentPdf mu v x) =
      (∑ d, (x d - mu d) ^ 2 / (2 * v d)) -
        ∑ d, (x d - mu' d) ^ 2 / (2 * v d) := by
  have hC : 0 < ∏ d, 1 / Real.sqrt (2 * Real.pi * v d) := by
    apply Finset.prod_pos
    intro d _
    have h1 : 0 < 2 * Real.pi * v d := by
      have hpi := Real.pi_pos
      have := hv d
      positivity
    have h2 := Real.sqrt_pos.mpr h1
    positivity
  unfold componentPdf
  rw [Real.log_mul hC.ne' (Real.exp_pos _).ne',
    Real.log_mul hC.ne' (Real.exp_pos _).ne', Real.log_exp, Real.log_exp]
  ring

/-- Per-frame Jensen inequality of EM: the log mixture likelihood gain
of any means-update g' is at least the responsibility-weighted gain of
the component log densities. -/
theorem log_mixture_ge {K D : ℕ} (g g' : GMM K D) (x : Fin D → ℝ)
    (hw : ∀ k, 0 ≤ g.weights k) (hs : ∑ k, g.weights k = 1)
    (hv : ∀ k d, 0 < g.variances k d)
    (hweq : g'.weights = g.weights) (hveq : g'.variances = g.variances) :
    Real.log (mixturePdf g x) +
      ∑ k, responsibility g x k *
        (Real.log (componentPdf (g'.means k) (g.variances k) x) -
          Real.log (componentPdf (g.means k) (g.variances k) x)) ≤
      Real.log (mixturePdf g' x) := by
  have hf : ∀ k, 0 < componentPdf (g.means k) (g.variances k) x :=
    fun k => componentPdf_pos _ _ _ (hv k)
  have hf' : ∀ k, 0 < componentPdf (g'.means k) (g.variances k) x :=
    fun k => componentPdf_pos _ _ _ (hv k)
  have hp : 0 < mixturePdf g x := mixturePdf_pos g x hw hs hv
  have hp' : 0 < mixturePdf g' x :=
    mixturePdf_pos g' x (by rw [hweq]; exact hw) (by rw [hweq]; exact hs)
      (by rw [hveq]; exact hv)
  have hz0 : ∀ k ∈ Finset.univ, (0 : ℝ) ≤ responsibility g x k :=
    fun k _ => responsibility_nonneg g x k hw hv
  have hz1 : ∑ k, responsibility g x k = 1 :=
    responsibility_sum_eq_one g x hw hs hv
  have hmem : ∀ k ∈ Finset.univ,
      componentPdf (g'.means k) (g.variances k) x /
        componentPdf (g.means k) (g.variances k) x ∈ Set.Ioi (0 : ℝ) :=
    fun k _ => div_pos (hf' k) (hf k)
  have jensen := (strictConcaveOn_log_Ioi.concaveOn).le_map_sum hz0 hz1 hmem
  have hterm : ∀ k ∈ Finset.univ,
      responsibility g x k •
          (componentPdf (g'.means k) (g.variances k) x /
            componentPdf (g.means k) (g.variances k) x) =
        g.weights k * componentPdf (g'.means k) (g.variances k) x /
          mixturePdf g x := by
    intro k _
    rw [smul_eq_mul]
    simp only [responsibility]
    field_simp [(hf k).ne', hp.ne']
    ring
  have hsum : ∑ k, responsibility g x k •
      (componentPdf (g'.means k) (g.variances k) x /
        componentPdf (g.means k) (g.variances k) x) =
      mixturePdf g' x / mixturePdf g x := by
    rw [Finset.sum_congr rfl hterm, ← Finset.sum_div]
    congr 1
    simp only [mixturePdf, hweq, hveq]
  rw [hsum, Real.log_div hp'.ne' hp.ne'] at jensen
  have hlog : ∀ k ∈ Finset.univ,
      responsibility g x k •
          Real.log (componentPdf (g'.means k) (g.variances k) x /
            componentPdf (g.means k) (g.variances k) x) =
        responsibility g x k *
          (Real.log (componentPdf (g'.means k) (g.variances k) x) -
            Real.log (componentPdf (g.means k) (g.variances k) x)) := by
    intro k _
    rw [smul_eq_mul, Real.log_div (hf' k).ne' (hf k).ne']
  rw [Finset.sum_congr rfl hlog] at jensen
  linarith

/-- Moving a mean part-way (coefficient occ/(occ + rf)) toward the
responsibility-weighted data mean does not increase the weighted sum of
squared deviations. -/
theorem blend_weighted_sq_nonneg {N : ℕ} (z x : Fin N → ℝ) (mu rf : ℝ)
    (hz : ∀ n, 0 ≤ z n) (hrf : 0 ≤ rf) :
    0 ≤ ∑ n, z n * ((x n - mu) ^ 2 -
      (x n - ((∑ j, z j) / ((∑ j, z j) + rf) *
            (1 / (∑ j, z j) * ∑ j, z j * x j) +
          (1 - (∑ j, z j) / ((∑ j, z j) + rf)) * mu)) ^ 2) := by
  by_cases h : (∑ j, z j) = 0
  · have hz0 : ∀ n ∈ Finset.univ, z n = 0 :=
      (Finset.sum_eq_zero_iff_of_nonneg (fun n _ => hz n)).mp h
    apply le_of_eq
    symm
    apply Finset.sum_eq_zero
    intro n hn
    rw [hz0 n hn, zero_mul]
  · have hocc0 : 0 ≤ ∑ j, z j := Finset.sum_nonneg fun j _ => hz j
    have hocc : 0 < ∑ j, z j := hocc0.lt_of_ne (Ne.symm h)
    have hd : 0 < (∑ j, z j) + rf := by linarith
    set occ := ∑ j, z j with hocc_def
    set S1 := ∑ j, z j * x j with hS1_def
    set α := occ / (occ + rf) with hα_def
    set m := 1 / occ * S1 with hm_def
    have hα0 : 0 ≤ α := div_nonneg hocc0 hd.le
    have hα1 : α ≤ 1 := by
      rw [hα_def, div_le_one hd]
      linarith
    have hS1 : S1 = occ * m := by
      rw [hm_def]
      field_simp
    have expand : ∀ n ∈ Finset.univ,
        z n * ((x n - mu) ^ 2 - (x n - (α * m + (1 - α) * mu)) ^ 2) =
          2 * (α * (m - mu)) * (z n * x n) +
            (mu ^ 2 - (α * m + (1 - α) * mu) ^ 2) * z n := by
      intro n _
      ring
    have key : ∑ n, z n * ((x n - mu) ^ 2 -
        (x n - (α * m + (1 - α) * mu)) ^ 2) =
        occ * (α * ((2 - α) * (m - mu) ^ 2)) := by
      rw [Finset.sum_congr rfl expand, Finset.sum_add_distrib,
        ← Finset.mul_sum, ← Finset.mul_sum, ← hS1_def, ← hocc_def, hS1]
      ring
    rw [key]
    exact mul_nonneg hocc0 (mul_nonneg hα0
      (mul_nonneg (by linarith) (sq_nonneg _)))

/-- The adapted mean of adaptStep applied per component and dimension
satisfies the blend inequality. -/
theorem adaptStep_weighted_sq_nonneg {K D N : ℕ} (rf : ℝ) (g : GMM K D)
    (X : Fin N → Fin D → ℝ) (k : Fin K) (d : Fin D)
    (hw : ∀ k, 0 ≤ g.weights k) (hv : ∀ k d, 0 < g.variances k d)
    (hrf : 0 ≤ rf) :
    0 ≤ ∑ n, responsibility g (X n) k *
      ((X n d - g.means k d) ^ 2 -
        (X n d - (adaptStep rf g X).means k d) ^ 2) :=
  blend_weighted_sq_nonneg (fun n => responsibility g (X n) k)
    (fun n => X n d) (g.means k d) rf
    (fun n => responsibility_nonneg g (X n) k hw hv) hrf

/-- The EM surrogate gain of one adaptStep is nonnegative. -/
theorem deltaQ_nonneg {K D N : ℕ} (rf : ℝ) (g : GMM K D)
    (X : Fin N → Fin D → ℝ)
    (hw : ∀ k, 0 ≤ g.weights k) (hv : ∀ k d, 0 < g.variances k d)
    (hrf : 0 ≤ rf) :
    0 ≤ ∑ n, ∑ k, responsibility g (X n) k *
      (Real.log (componentPdf ((adaptStep rf g X).means k)
          (g.variances k) (X n)) -
        Real.log (componentPdf (g.means k) (g.variances k) (X n))) := by
  rw [Finset.sum_comm]
  apply Finset.sum_nonneg
  intro k _
  have hrw : ∀ n ∈ Finset.univ,
      responsibility g (X n) k *
        (Real.log (componentPdf ((adaptStep rf g X).means k)
            (g.variances k) (X n)) -
          Real.log (componentPdf (g.means k) (g.variances k) (X n))) =
      ∑ d, responsibility g (X n) k *
        ((X n d - g.means k d) ^ 2 -
          (X n d - (adaptStep rf g X).means k d) ^ 2) *
        (1 / (2 * g.variances k d)) := by
    intro n _
    rw [log_componentPdf_sub _ _ _ _ (hv k), ← Finset.sum_sub_distrib,
      Finset.mul_sum]
    exact Finset.sum_congr rfl fun d _ => by ring
  rw [Finset.sum_congr rfl hrw, Finset.sum_comm]
  apply Finset.sum_nonneg
  intro d _
  rw [← Finset.sum_mul]
  apply mul_nonneg (adaptStep_weighted_sq_nonneg rf g X k d hw hv hrf)
  have := hv k d
  positivity

/-- One iteration of the adaptation loop never decreases gmm.score. -/
theorem score_adaptStep_le {K D N : ℕ} (rf : ℝ) (g : GMM K D)
    (X : Fin N → Fin D → ℝ)
    (hw : ∀ k, 0 ≤ g.weights k) (hs : ∑ k, g.weights k = 1)
    (hv : ∀ k d, 0 < g.variances k d) (hrf : 0 ≤ rf) :
    score g X ≤ score (adaptStep rf g X) X := by
  unfold score
  rw [div_eq_mul_inv, div_eq_mul_inv]
  apply mul_le_mul_of_nonneg_right _ (by positivity : (0 : ℝ) ≤ ((N : ℝ))⁻¹)
  calc ∑ n, Real.log (mixturePdf g (X n))
      ≤ ∑ n, (Real.log (mixturePdf g (X n)) +
          ∑ k, responsibility g (X n) k *
            (Real.log (componentPdf ((adaptStep rf g X).means k)
                (g.variances k) (X n)) -
              Real.log (componentPdf (g.means k) (g.variances k) (X n)))) := by
        rw [Finset.sum_add_distrib]
        exact le_add_of_nonneg_right (deltaQ_nonneg rf g X hw hv hrf)
    _ ≤ ∑ n, Real.log (mixturePdf (adaptStep rf g X) (X n)) :=
        Finset.sum_le_sum fun n _ =>
          log_mixture_ge g (adaptStep rf g X) (X n) hw hs hv rfl rfl

theorem iterate_adaptStep_invariant {K D N : ℕ} (rf : ℝ)
    (X : Fin N → Fin D → ℝ) (g : GMM K D) (t : ℕ) :
    ((fun h => adaptStep rf h X)^[t] g).weights = g.weights ∧
      ((fun h => adaptStep rf h X)^[t] g).variances = g.variances := by
  induction t with
  | zero => exact ⟨rfl, rfl⟩
  | succ t ih =>
      rw [Function.iterate_succ_apply']
      exact ⟨ih.1, ih.2⟩

/-! ### Claim C4 -/

/-- C4: for a fixed feature matrix and UBM (weights nonnegative and
normalized, variances positive, relevance_factor nonnegative), the
sequence of total data log-likelihood values at the end of each
successive iteration of the map_adaptation loop is non-decreasing. -/
theorem map_adaptation_score_monotone {K D N : ℕ} (rf : ℝ) (g : GMM K D)
    (X : Fin N → Fin D → ℝ)
    (hw : ∀ k, 0 ≤ g.weights k) (hs : ∑ k, g.weights k = 1)
    (hv : ∀ k d, 0 < g.variances k d) (hrf : 0 ≤ rf) :
    Monotone (fun t => score ((fun h => adaptStep rf h X)^[t] g) X) := by
  apply monotone_nat_of_le_succ
  intro t
  show score ((fun h => adaptStep rf h X)^[t] g) X ≤
    score ((fun h => adaptStep rf h X)^[t + 1] g) X
  rw [Function.iterate_succ_apply']
  obtain ⟨hwt, hvt⟩ := iterate_adaptStep_invariant rf X g t
  exact score_adaptStep_le rf _ X (by rw [hwt]; exact hw)
    (by rw [hwt]; exact hs) (by rw [hvt]; exact hv) hrf

/-- C4 witness: on the concrete one-component UBM ubm1 and frame matrix
X1 with relevance_factor 16 the iteration scores are non-decreasing. -/
theorem map_adaptation_score_monotone_witness :
    Monotone (fun t => score ((fun h => adaptStep 16 h X1)^[t] ubm1) X1) :=
  map_adaptation_score_monotone 16 ubm1 X1 (fun _ => zero_le_one)
    (by simp [ubm1]) (fun _ _ => one_pos) (by norm_num)

/-! ### Support lemmas for the scorer: softmax -/

theorem softmaxVals_length (v : List ℝ) : (softmaxVals v).length = v.length := by
  simp [softmaxVals]

theorem sum_map_div (l : List ℝ) (c : ℝ) :
    (l.map (fun a => a / c)).sum = l.sum / c := by
  induction l with
  | nil => simp
  | cons a t ih => simp [ih, add_div]

theorem exp_list_sum_pos (v : List ℝ) (h : v ≠ []) (m : ℝ) :
    0 < (v.map (fun b => Real.exp (b - m))).sum := by
  apply List.sum_pos
  · intro y hy
    obtain ⟨a, -, rfl⟩ := List.mem_map.mp hy
    exact Real.exp_pos _
  · simpa using h

theorem softmaxVals_sum_eq_one (v : List ℝ) (h : v ≠ []) :
    (softmaxVals v).sum = 1 := by
  unfold softmaxVals
  rw [sum_map_div]
  exact div_self (exp_list_sum_pos v h (listMax v)).ne'

theorem foldl_max_add (t : List ℝ) (a c : ℝ) :
    (t.map (fun x => x + c)).foldl max (a + c) = t.foldl max a + c := by
  induction t generalizing a with
  | nil => simp
  | cons b t ih =>
      simp only [List.map_cons, List.foldl_cons, max_add_add_right]
      exact ih (max a b)

theorem listMax_map_add (v : List ℝ) (h : v ≠ []) (c : ℝ) :
    listMax (v.map (fun x => x + c)) = listMax v + c := by
  cases v with
  | nil => exact absurd rfl h
  | cons a t => exact foldl_max_add t a c

theorem softmaxVals_shift (v : List ℝ) (h : v ≠ []) (c : ℝ) :
    softmaxVals (v.map (fun x => x + c)) = softmaxVals v := by
  unfold softmaxVals
  rw [listMax_map_add v h c]
  simp only [List.map_map]
  have hcomp : ((fun a => Real.exp (a - (listMax v + c))) ∘ fun x => x + c) =
      fun a => Real.exp (a - listMax v) := by
    funext a
    simp only [Function.comp_apply]
    congr 1
    ring
  rw [hcomp]

theorem logLikelihoods_map_fst {G Q : Type} (sc : G → Q → ℝ)
    (store : List (String × G)) (x : Q) :
    (logLikelihoods sc store x).map Prod.fst = store.map Prod.fst := by
  simp [logLikelihoods, List.map_map, Function.comp]

theorem logLikelihoods_shift_vals {G Q : Type} (sc : G → Q → ℝ) (c : ℝ)
    (store : List (String × G)) (x : Q) :
    (logLikelihoods (fun g q => sc g q + c) store x).map Prod.snd =
      ((logLikelihoods sc store x).map Prod.snd).map (fun v => v + c) := by
  simp [logLikelihoods, List.map_map, Function.comp]

theorem logLikelihoods_vals_ne_nil {G Q : Type} (sc : G → Q → ℝ)
    (store : List (String × G)) (x : Q) (h : store ≠ []) :
    (logLikelihoods sc store x).map Prod.snd ≠ [] := by
  simpa [logLikelihoods] using h

/-! ### Claim C7 -/

/-- C7: for a non-empty store the probability mapping returned by
predict_gmm_models sums to exactly 1 (so certainly to 1 within 1e-6),
and adding one constant to every log-likelihood leaves the mapping
unchanged (shift invariance of the stabilized softmax). -/
theorem predict_gmm_models_softmax_properties {G Q : Type} (sc : G → Q → ℝ)
    (x : Q) (store : List (String × G)) (h : store ≠ []) :
    ((predict_gmm_models sc x store).2.map Prod.snd).sum = 1 ∧
      |((predict_gmm_models sc x store).2.map Prod.snd).sum - 1| ≤ 1e-6 ∧
      ∀ c : ℝ, (predict_gmm_models (fun g q => sc g q + c) x store).2 =
        (predict_gmm_models sc x store).2 := by
  have hvne := logLikelihoods_vals_ne_nil sc store x h
  have hsum : ((predict_gmm_models sc x store).2.map Prod.snd).sum = 1 := by
    simp only [predict_gmm_models]
    rw [List.map_snd_zip]
    · exact softmaxVals_sum_eq_one _ hvne
    · rw [softmaxVals_length]
      simp [logLikelihoods]
  refine ⟨hsum, by rw [hsum]; norm_num, ?_⟩
  intro c
  simp only [predict_gmm_models]
  rw [logLikelihoods_map_fst, logLikelihoods_map_fst,
    logLikelihoods_shift_vals, softmaxVals_shift _ hvne]

/-- C7 witness: a one-speaker store with constant score; the returned
probability mass function sums to 1. -/
theorem predict_gmm_models_softmax_properties_witness :
    ((predict_gmm_models (fun (_ : Unit) (_ : Unit) => (0 : ℝ)) ()
        [("A", ())]).2.map Prod.snd).sum = 1 :=
  (predict_gmm_models_softmax_properties (fun _ _ => (0 : ℝ)) () [("A", ())]
    (by simp)).1

/-! ### Support lemmas for the scorer: Python max over a dict -/

theorem argmaxAcc_spec (l : List (String × ℝ)) (acc : String × ℝ) :
    (argmaxAcc l acc = acc ∨ argmaxAcc l acc ∈ l) ∧
      acc.2 ≤ (argmaxAcc l acc).2 ∧ ∀ p ∈ l, p.2 ≤ (argmaxAcc l acc).2 := by
  induction l generalizing acc with
  | nil =>
      exact ⟨Or.inl rfl, le_refl _, fun p hp => absurd hp (List.not_mem_nil p)⟩
  | cons q t ih =>
      obtain ⟨hmem, hge, hall⟩ := ih (if acc.2 < q.2 then q else acc)
      have hstep : argmaxAcc (q :: t) acc =
          argmaxAcc t (if acc.2 < q.2 then q else acc) := rfl
      have hacc : acc.2 ≤ (if acc.2 < q.2 then q else acc).2 := by
        by_cases hc : acc.2 < q.2
        · rw [if_pos hc]; exact hc.le
        · rw [if_neg hc]
      have hq : q.2 ≤ (if acc.2 < q.2 then q else acc).2 := by
        by_cases hc : acc.2 < q.2
        · rw [if_pos hc]
        · rw [if_neg hc]; exact le_of_not_lt hc
      refine ⟨?_, ?_, ?_⟩
      · rcases hmem with h | h
        · by_cases hc : acc.2 < q.2
          · right
            rw [hstep, h, if_pos hc]
            exact List.mem_cons_self q t
          · left
            rw [hstep, h, if_neg hc]
        · right
          rw [hstep]
          exact List.mem_cons_of_mem q h
      · rw [hstep]
        exact le_trans hacc hge
      · intro p hp
        rw [hstep]
        rcases List.mem_cons.mp hp with rfl | hp'
        · exact le_trans hq hge
        · exact hall p hp'

theorem topEntry_spec (l : List (String × ℝ)) (h : l ≠ []) :
    topEntry l ∈ l ∧ ∀ p ∈ l, p.2 ≤ (topEntry l).2 := by
  cases l with
  | nil => exact absurd rfl h
  | cons q t =>
      obtain ⟨hmem, hge, hall⟩ := argmaxAcc_spec t q
      have hstep : topEntry (q :: t) = argmaxAcc t q := rfl
      refine ⟨?_, ?_⟩
      · rcases hmem with h' | h'
        · rw [hstep, h']
          exact List.mem_cons_self q t
        · rw [hstep]
          exact List.mem_cons_of_mem q h'
      · intro p hp
        rw [hstep]
        rcases List.mem_cons.mp hp with rfl | hp'
        · exact hge
        · exact hall p hp'

theorem dictGet_eq_of_mem (l : List (String × ℝ)) (p : String × ℝ)
    (hmem : p ∈ l) (hnd : (l.map Prod.fst).Nodup) : dictGet l p.1 = p.2 := by
  induction l with
  | nil => exact absurd hmem (List.not_mem_nil p)
  | cons q t ih =>
      rcases List.mem_cons.mp hmem with rfl | hp
      · simp only [dictGet]
        rw [List.find?_cons_of_pos _ (by simp)]
      · have hne : (q.1 == p.1) = false := by
          have hp1 : p.1 ∈ t.map Prod.fst := List.mem_map_of_mem Prod.fst hp
          have hq1 : q.1 ∉ t.map Prod.fst :=
            (List.nodup_cons.mp (by simpa using hnd)).1
          simp only [beq_eq_false_iff_ne, ne_eq]
          intro he
          exact hq1 (he ▸ hp1)
        simp only [dictGet]
        rw [List.find?_cons_of_neg _ (by simpa using hne)]
        exact ih hp (List.nodup_cons.mp (by simpa using hnd)).2

theorem zip_fst_map_snd (l : List (String × ℝ)) (f : ℝ → ℝ) :
    (l.map Prod.fst).zip ((l.map Prod.snd).map f) =
      l.map (fun p => (p.1, f p.2)) := by
  induction l with
  | nil => rfl
  | cons q t ih => simp only [List.map_cons, List.zip_cons_cons, ih]

theorem softmaxVals_eq_map (v : List ℝ) :
    softmaxVals v = v.map (fun a => Real.exp (a - listMax v) /
      (v.map (fun b => Real.exp (b - listMax v))).sum) := by
  unfold softmaxVals
  rw [List.map_map]
  rfl

theorem predict_probs_eq {G Q : Type} (sc : G → Q → ℝ) (x : Q)
    (store : List (String × G)) :
    (predict_gmm_models sc x store).2 =
      (logLikelihoods sc store x).map (fun p => (p.1,
        Real.exp (p.2 - listMax ((logLikelihoods sc store x).map Prod.snd)) /
          (((logLikelihoods sc store x).map Prod.snd).map (fun b =>
            Real.exp (b - listMax ((logLikelihoods sc store x).map
              Prod.snd)))).sum)) := by
  simp only [predict_gmm_models]
  rw [softmaxVals_eq_map, zip_fst_map_snd]

theorem dictGet_map_keyed (l : List (String × ℝ)) (f : ℝ → ℝ)
    (p : String × ℝ) (hp : p ∈ l) (hnd : (l.map Prod.fst).Nodup) :
    dictGet (l.map (fun q => (q.1, f q.2))) p.1 = f p.2 := by
  have hndp : ((l.map (fun q => (q.1, f q.2))).map Prod.fst).Nodup := by
    rw [List.map_map]
    simpa [Function.comp] using hnd
  refine dictGet_eq_of_mem _ (⟨p.1, f p.2⟩ : String × ℝ) ?_ hndp
  exact List.mem_map_of_mem (fun q => (q.1, f q.2)) hp

/-- Arg-max consistency for any strictly order-preserving transform of
the per-speaker values; instantiated with the softmax map. -/
theorem argmax_consistent_general (ll : List (String × ℝ)) (f : ℝ → ℝ)
    (hne : ll ≠ []) (hnd : (ll.map Prod.fst).Nodup)
    (hdist : (ll.map Prod.snd).Nodup)
    (hmono : ∀ a b : ℝ, a ≤ b → f a ≤ f b)
    (hstrict : ∀ a b : ℝ, a < b → f a < f b) :
    (∀ p ∈ ll, p.2 ≤ dictGet ll (topEntry ll).1) ∧
      (∀ p ∈ ll.map (fun q => (q.1, f q.2)),
        p.2 ≤ dictGet (ll.map (fun q => (q.1, f q.2))) (topEntry ll).1) ∧
      ∀ p ∈ ll, p.1 ≠ (topEntry ll).1 →
        p.2 < dictGet ll (topEntry ll).1 ∧
          dictGet (ll.map (fun q => (q.1, f q.2))) p.1 <
            dictGet (ll.map (fun q => (q.1, f q.2))) (topEntry ll).1 := by
  obtain ⟨htopmem, htople⟩ := topEntry_spec ll hne
  have hdg : dictGet ll (topEntry ll).1 = (topEntry ll).2 :=
    dictGet_eq_of_mem ll (topEntry ll) htopmem hnd
  have hdgp : dictGet (ll.map (fun q => (q.1, f q.2))) (topEntry ll).1 =
      f (topEntry ll).2 :=
    dictGet_map_keyed ll f (topEntry ll) htopmem hnd
  refine ⟨?_, ?_, ?_⟩
  · intro p hp
    rw [hdg]
    exact htople p hp
  · intro p hp
    rw [hdgp]
    obtain ⟨q, hq, rfl⟩ := List.mem_map.mp hp
    exact hmono _ _ (htople q hq)
  · intro p hp hne1
    have hptop : p ≠ topEntry ll := fun he => hne1 (by rw [he])
    have hlt : p.2 < (topEntry ll).2 := by
      rcases lt_or_eq_of_le (htople p hp) with h | h
      · exact h
      · exact absurd (List.inj_on_of_nodup_map hdist hp htopmem h) hptop
    refine ⟨by rw [hdg]; exact hlt, ?_⟩
    rw [hdgp, dictGet_map_keyed ll f p hp hnd]
    exact hstrict _ _ hlt

/-! ### Claim C10 -/

/-- C10: for a non-empty store with no duplicate speaker names and
pairwise distinct log-likelihoods, the speaker returned by
predict_gmm_models attains the maximum of the log-likelihood mapping
and of the softmax probability mapping, and is strictly above every
other speaker in both mappings (softmax is strictly order-preserving). -/
theorem predict_gmm_models_argmax_consistent {G Q : Type} (sc : G → Q → ℝ)
    (x : Q) (store : List (String × G)) (hne : store ≠ [])
    (hnd : (store.map Prod.fst).Nodup)
    (hdist : ((logLikelihoods sc store x).map Prod.snd).Nodup) :
    (∀ p ∈ logLikelihoods sc store x,
        p.2 ≤ dictGet (logLikelihoods sc store x)
          (predict_gmm_models sc x store).1) ∧
      (∀ p ∈ (predict_gmm_models sc x store).2,
        p.2 ≤ dictGet (predict_gmm_models sc x store).2
          (predict_gmm_models sc x store).1) ∧
      ∀ p ∈ logLikelihoods sc store x,
        p.1 ≠ (predict_gmm_models sc x store).1 →
          p.2 < dictGet (logLikelihoods sc store x)
              (predict_gmm_models sc x store).1 ∧
            dictGet (predict_gmm_models sc x store).2 p.1 <
              dictGet (predict_gmm_models sc x store).2
                (predict_gmm_models sc x store).1 := by
  have hllne : logLikelihoods sc store x ≠ [] := by
    simpa [logLikelihoods] using hne
  have hndll : ((logLikelihoods sc store x).map Prod.fst).Nodup := by
    rw [logLikelihoods_map_fst]
    exact hnd
  have hSpos : 0 < (((logLikelihoods sc store x).map Prod.snd).map (fun b =>
      Real.exp (b - listMax ((logLikelihoods sc store x).map Prod.snd)))).sum :=
    exp_list_sum_pos _ (logLikelihoods_vals_ne_nil sc store x hne) _
  have hmono : ∀ a b : ℝ, a ≤ b →
      Real.exp (a - listMax ((logLikelihoods sc store x).map Prod.snd)) /
          (((logLikelihoods sc store x).map Prod.snd).map (fun b =>
            Real.exp (b - listMax ((logLikelihoods sc store x).map
              Prod.snd)))).sum ≤
        Real.exp (b - listMax ((logLikelihoods sc store x).map Prod.snd)) /
          (((logLikelihoods sc store x).map Prod.snd).map (fun b =>
            Real.exp (b - listMax ((logLikelihoods sc store x).map
              Prod.snd)))).sum := by
    intro a b hab
    apply div_le_div_of_nonneg_right ?_ hSpos.le
    exact Real.exp_le_exp.mpr (by linarith)
  have hstrict : ∀ a b : ℝ, a < b →
      Real.exp (a - listMax ((logLikelihoods sc store x).map Prod.snd)) /
          (((logLikelihoods sc store x).map Prod.snd).map (fun b =>
            Real.exp (b - listMax ((logLikelihoods sc store x).map
              Prod.snd)))).sum <
        Real.exp (b - listMax ((logLikelihoods sc store x).map Prod.snd)) /
          (((logLikelihoods sc store x).map Prod.snd).map (fun b =>
            Real.exp (b - listMax ((logLikelihoods sc store x).map
              Prod.snd)))).sum := by
    intro a b hab
    apply div_lt_div_of_pos_right ?_ hSpos
    exact Real.exp_lt_exp.mpr (by linarith)
  have hgen := argmax_consistent_general (logLikelihoods sc store x)
    (fun v => Real.exp (v - listMax ((logLikelihoods sc store x).map
        Prod.snd)) /
      (((logLikelihoods sc store x).map Prod.snd).map (fun b =>
        Real.exp (b - listMax ((logLikelihoods sc store x).map
          Prod.snd)))).sum)
    hllne hndll hdist hmono hstrict
  rw [predict_probs_eq]
  exact hgen

/-- C10 witness: the two-speaker store cexStore with scores log 2 and 0
for the first query; hypotheses (non-empty store, distinct speaker
names, distinct log-likelihoods) hold and the returned speaker
dominates both mappings. -/
theorem predict_gmm_models_argmax_consistent_witness :
    (("B", (0 : ℝ)) : String × ℝ).2 ≤
      dictGet (logLikelihoods cexScore cexStore false)
        (predict_gmm_models cexScore false cexStore).1 :=
  (predict_gmm_models_argmax_consistent cexScore false cexStore
    (by simp [cexStore])
    (by simp [cexStore])
    (by
      simp [logLikelihoods, cexStore, cexScore]
      norm_num)).1
    ("B", 0) (by simp [logLikelihoods, cexStore, cexScore])

/-! ### Concrete scorer computations for claim C2 -/

theorem cex_ll_false :
    logLikelihoods cexScore cexStore false = [("A", Real.log 2), ("B", 0)] := by
  simp [logLikelihoods, cexStore, cexScore]

theorem cex_ll_true :
    logLikelihoods cexScore cexStore true = [("A", 0), ("B", Real.log 2)] := by
  simp [logLikelihoods, cexStore, cexScore]

theorem cex_listMax_false : listMax [Real.log 2, 0] = Real.log 2 := by
  simp only [listMax, List.foldl]
  exact max_eq_left (Real.log_nonneg one_le_two)

theorem cex_listMax_true : listMax [0, Real.log 2] = Real.log 2 := by
  simp only [listMax, List.foldl]
  exact max_eq_right (Real.log_nonneg one_le_two)

theorem cex_softmax_false :
    softmaxVals [Real.log 2, 0] = [2 / 3, 1 / 3] := by
  have h2 : Real.exp (Real.log 2) = 2 := Real.exp_log two_pos
  unfold softmaxVals
  rw [cex_listMax_false]
  simp only [List.map_cons, List.map_nil, sub_self, Real.exp_zero, zero_sub,
    Real.exp_neg, h2, List.sum_cons, List.sum_nil]
  norm_num

theorem cex_softmax_true :
    softmaxVals [0, Real.log 2] = [1 / 3, 2 / 3] := by
  have h2 : Real.exp (Real.log 2) = 2 := Real.exp_log two_pos
  unfold softmaxVals
  rw [cex_listMax_true]
  simp only [List.map_cons, List.map_nil, sub_self, Real.exp_zero, zero_sub,
    Real.exp_neg, h2, List.sum_cons, List.sum_nil]
  norm_num

theorem cex_top_false :
    topEntry [("A", Real.log 2), ("B", 0)] = ("A", Real.log 2) := by
  have h : ¬ (Real.log 2 < 0) := not_lt.mpr (Real.log_nonneg one_le_two)
  simp [topEntry, argmaxAcc, h]

theorem cex_top_true :
    topEntry [("A", 0), ("B", Real.log 2)] = ("B", Real.log 2) := by
  have h : (0 : ℝ) < Real.log 2 := Real.log_pos one_lt_two
  simp [topEntry, argmaxAcc, h]

theorem cex_predict_false :
    predict_gmm_models cexScore false cexStore =
      ("A", [("A", 2 / 3), ("B", 1 / 3)]) := by
  simp only [predict_gmm_models, cex_ll_false, List.map_cons, List.map_nil,
    cex_softmax_false, cex_top_false]
  rfl

theorem cex_predict_true :
    predict_gmm_models cexScore true cexStore =
      ("B", [("A", 1 / 3), ("B", 2 / 3)]) := by
  simp only [predict_gmm_models, cex_ll_true, List.map_cons, List.map_nil,
    cex_softmax_true, cex_top_true]
  rfl

/-! ### Claim C2 -/

/-- C2 counterexample: with the two-speaker store cexStore and queries
false/true (top speakers "A" and "B", probability mappings (2/3, 1/3)
and (1/3, 2/3)), the code returns the same-speaker probability
2/3 * 1/3 = 2/9, while the claim (first query's mass at its own top
speaker times second query's mass at the second query's own top
speaker) requires 2/3 * 2/3 = 4/9. -/
theorem same_different_task_counterexample :
    (same_different_task cexScore false true cexStore).2.1 ≠
      dictGet (predict_gmm_models cexScore false cexStore).2
          (predict_gmm_models cexScore false cexStore).1 *
        dictGet (predict_gmm_models cexScore true cexStore).2
          (predict_gmm_models cexScore true cexStore).1 := by
  have hAB : (("A" : String) == "B") = false := by decide
  simp only [same_different_task, cex_predict_false, cex_predict_true]
  norm_num [dictGet, List.find?, hAB]

/-- C2 amended: same_different_task multiplies the first query's
probability mass at its own top speaker s1 by the second query's
probability mass at that same s1 (not at the second query's own top
speaker), and returns 1 minus that product as the different-speaker
probability. -/
theorem same_different_task_uses_first_top_speaker {G Q : Type}
    (sc : G → Q → ℝ) (x1 x2 : Q) (store : List (String × G)) :
    (same_different_task sc x1 x2 store).2.1 =
      dictGet (predict_gmm_models sc x1 store).2
          (predict_gmm_models sc x1 store).1 *
        dictGet (predict_gmm_models sc x2 store).2
          (predict_gmm_models sc x1 store).1 ∧
      (same_different_task sc x1 x2 store).2.2 =
        1 - (same_different_task sc x1 x2 store).2.1 :=
  ⟨rfl, rfl⟩

end GmmPy
